import Mathlib

/-!
Verification of the name-reconciliation core of the peopleclaychecking
repository.

JavaScript strings are modelled as lists of Unicode code points (`JSStr`),
JS `Set<string>` values as insertion-ordered duplicate-free lists, and JS
`Map<string, string[]>` values as insertion-ordered association lists, which
matches the iteration-order semantics the code relies on.

Embedded source functions (names kept):
* `normalizeLine`, `toUniqueSet` — frontend/src/lib/parse.ts
* `setIntersection`, `setDifference` — frontend/src/lib/compare.ts
* `reconcile` — the `results` computation of
  frontend/src/app/company-checking/page.tsx
* `latestRow` — the SQL read (`ORDER BY created_at DESC LIMIT 1`) of the GET
  handler in frontend/src/app/api/matching/route.ts
* `resolveFilterReference`, `runMatching` — modelled from the spec, since the
  Python backend (pipedrive.py, filtered_matching.py) is not part of the
  shipped sources.
-/

/-- A JavaScript string, as its sequence of Unicode code points. -/
abbrev JSStr := List Nat

/-- The `NormalizeOptions` interface from frontend/src/types. -/
structure NormalizeOptions where
  trim : Bool
  caseInsensitive : Bool
  deriving Repr, DecidableEq

/-- `result.replace(/ /g, " ")`, one code point at a time:
non-breaking space (U+00A0 = 160) becomes an ordinary space (32). -/
def replChar (n : Nat) : Nat :=
  if n = 160 then 32 else n

/-- One step of `String.prototype.toLowerCase`, restricted to the ASCII
letters the comparison keys use: `A`–`Z` (65–90) map to `a`–`z`. -/
def toLowerChar (n : Nat) : Nat :=
  if 65 ≤ n ∧ n ≤ 90 then n + 32 else n

/-- The JavaScript WhiteSpace ∪ LineTerminator set used by
`String.prototype.trim`: TAB, LF, VT, FF, CR, SP, NBSP, OGHAM SP,
U+2000–U+200A, LS, PS, NNBSP, MMSP, IDSP, ZWNBSP. -/
def jsWhitespaceChar (n : Nat) : Bool :=
  n == 9 || n == 10 || n == 11 || n == 12 || n == 13 || n == 32 || n == 160 ||
  n == 5760 || (decide (8192 ≤ n) && decide (n ≤ 8202)) || n == 8232 ||
  n == 8233 || n == 8239 || n == 8287 || n == 12288 || n == 65279

/-- `String.prototype.trim`: drop JS whitespace from both ends. -/
def jsTrim (s : JSStr) : JSStr :=
  ((s.dropWhile jsWhitespaceChar).reverse.dropWhile jsWhitespaceChar).reverse

/-- `normalizeLine` from frontend/src/lib/parse.ts: replace U+00A0 by a
space, then optionally trim, then optionally lower-case. -/
def normalizeLine (line : JSStr) (options : NormalizeOptions) : JSStr :=
  let result := line.map replChar
  let result := if options.trim then jsTrim result else result
  let result := if options.caseInsensitive then result.map toLowerChar else result
  result

/-- `Set.prototype.add`: append unless already present (SameValueZero on
strings is code-point-sequence equality). -/
def setAdd (s : List JSStr) (x : JSStr) : List JSStr :=
  if x ∈ s then s else s ++ [x]

/-- `Map.prototype.get(k) ?? []` then `arr.push(raw)` then `set(k, arr)`:
update the existing entry in place (keeping its position) or append a new
entry at the end. -/
def mapUpsert (m : List (JSStr × List JSStr)) (k raw : JSStr) :
    List (JSStr × List JSStr) :=
  match m with
  | [] => [(k, [raw])]
  | (k', vs) :: rest =>
    if k' = k then (k', vs ++ [raw]) :: rest else (k', vs) :: mapUpsert rest k raw

/-- `Map.prototype.get`. -/
def mapLookup (m : List (JSStr × List JSStr)) (k : JSStr) : Option (List JSStr) :=
  match m with
  | [] => none
  | (k', vs) :: rest => if k' = k then some vs else mapLookup rest k

/-- The return value of `toUniqueSet`. -/
structure NameSet where
  set : List JSStr
  normalizedToOriginals : List (JSStr × List JSStr)
  totalCount : Nat
  uniqueCount : Nat
  deriving Repr, DecidableEq

/-- The body of the `for (const raw of lines)` loop in `toUniqueSet`. -/
def toUniqueSetStep (options : NormalizeOptions)
    (st : List JSStr × List (JSStr × List JSStr) × Nat) (raw : JSStr) :
    List JSStr × List (JSStr × List JSStr) × Nat :=
  let normalized := normalizeLine raw options
  if normalized.length = 0 then st
  else (setAdd st.1 normalized, mapUpsert st.2.1 normalized raw, st.2.2 + 1)

/-- `toUniqueSet` from frontend/src/lib/parse.ts. -/
def toUniqueSet (lines : List JSStr) (options : NormalizeOptions) : NameSet :=
  let st := lines.foldl (toUniqueSetStep options) ([], [], 0)
  { set := st.1
    normalizedToOriginals := st.2.1
    totalCount := st.2.2
    uniqueCount := st.1.length }

/-- `setIntersection` from frontend/src/lib/compare.ts: iterate the smaller
set, keep the members of the larger one. -/
def setIntersection (a b : List JSStr) : List JSStr :=
  let smaller := if a.length ≤ b.length then a else b
  let larger := if a.length ≤ b.length then b else a
  smaller.foldl (fun result item => if item ∈ larger then setAdd result item else result) []

/-- `setDifference` from frontend/src/lib/compare.ts. -/
def setDifference (a b : List JSStr) : List JSStr :=
  a.foldl (fun result item => if item ∈ b then result else setAdd result item) []

/-- The match / only-A / only-B partition. The source field `matches` is
spelled `matched` here because `matches` is a Lean keyword. -/
structure Reconciliation where
  matched : List JSStr
  onlyA : List JSStr
  onlyB : List JSStr
  deriving Repr, DecidableEq

/-- The `results` computation of the company-checking page: intersection and
the two differences over the normalized key sets. -/
def reconcile (a b : List JSStr) : Reconciliation :=
  { matched := setIntersection a b
    onlyA := setDifference a b
    onlyB := setDifference b a }

/-- Code points of a Lean string literal, for concrete test inputs. -/
def jstr (s : String) : JSStr :=
  s.data.map Char.toNat

/-- An ASCII decimal digit `0`–`9` (code points 48–57). -/
def isDigitCp (n : Nat) : Bool :=
  decide (48 ≤ n) && decide (n ≤ 57)

/-- The maximal leading run of digits. -/
def digitRun (s : JSStr) : JSStr :=
  s.takeWhile isDigitCp

/-- Modelled from the spec: the backend `extract_filter_id_from_url`
(pipedrive.py) is not among the shipped sources; §4.3 describes it as a
regex search for a literal pattern followed by at least one digit, capturing
the maximal digit run at the first position where the whole pattern matches. -/
def searchLitDigits (pat : JSStr) : JSStr → Option JSStr
  | [] => none
  | c :: rest =>
    let after := (c :: rest).drop pat.length
    if pat.isPrefixOf (c :: rest) && !(after.takeWhile isDigitCp).isEmpty then
      some (after.takeWhile isDigitCp)
    else searchLitDigits pat rest

/-- Modelled from the spec: the fallback of §4.3, the first maximal run of
digits anywhere in the string. -/
def firstDigitRun : JSStr → Option JSStr
  | [] => none
  | c :: rest => if isDigitCp c then some (digitRun (c :: rest)) else firstDigitRun rest

/-- The error kind of §7 for a filter reference without digits. -/
structure InvalidReferenceError where
  deriving Repr, DecidableEq

/-- Modelled from the spec: `resolveFilterReference` of §4.3 — digits after a
literal `filters/`, else the value of a `filter_id` query parameter, else the
first digit run anywhere, else `InvalidReferenceError`. The backend
implementation (pipedrive.py) is not among the shipped sources. -/
def resolveFilterReference (s : JSStr) : Except InvalidReferenceError JSStr :=
  match searchLitDigits (jstr "filters/") s with
  | some d => .ok d
  | none =>
    match searchLitDigits (jstr "filter_id=") s with
    | some d => .ok d
    | none =>
      match firstDigitRun s with
      | some d => .ok d
      | none => .error {}

/-- The `ReconciliationSummary` record of §3 (the `computedAt` timestamp is
carried by the position in the append-only cache log). -/
structure ReconciliationSummary where
  filterName : Option JSStr
  sideACount : Nat
  sideBCount : Nat
  matchCount : Nat
  onlyACount : Nat
  onlyBCount : Nat
  deriving Repr, DecidableEq

/-- Modelled from the spec: the Result Cache of §4.4 as an append-only log of
(filter identity, summary) rows; later rows are more recent (`computedAt` is
monotone in write order and ties go to the last write, §5). -/
def getLatestCache (log : List (Option JSStr × ReconciliationSummary))
    (fid : Option JSStr) : Option ReconciliationSummary :=
  match log with
  | [] => none
  | row :: rest =>
    match getLatestCache rest fid with
    | some s => some s
    | none => if row.1 = fid then some row.2 else none

/-- Modelled from the spec: `put` of §4.4 — append-only, never mutates a
prior row. -/
def putCache (log : List (Option JSStr × ReconciliationSummary))
    (fid : Option JSStr) (s : ReconciliationSummary) :
    List (Option JSStr × ReconciliationSummary) :=
  log ++ [(fid, s)]

/-- Modelled from the spec: `runMatching` of §6 with the cache policy of
§4.4 — a cache hit is used when `forceRefresh` is not requested and a summary
exists for the requested filter identity; otherwise the summary is computed
(`compute` stands for the resolve/fetch/reconcile pipeline, deterministic for
a fixed external data set) and persisted. Returns (summary, fromCache, new
cache state). The orchestrator implementation (filtered_matching.py) is not
among the shipped sources. -/
def runMatching (compute : Option JSStr → ReconciliationSummary)
    (log : List (Option JSStr × ReconciliationSummary))
    (fid : Option JSStr) (forceRefresh : Bool) :
    ReconciliationSummary × Bool × List (Option JSStr × ReconciliationSummary) :=
  match if forceRefresh then none else getLatestCache log fid with
  | some s => (s, true, log)
  | none =>
    let s := compute fid
    (s, false, putCache log fid s)

/-- A row of the `matching_summary` table as read by the GET handler of
frontend/src/app/api/matching/route.ts. -/
structure SummaryRow where
  filter_id : Option JSStr
  matching_companies : Nat
  non_matching_pipedrive : Nat
  filter_name : Option JSStr
  created_at : Nat
  deriving Repr, DecidableEq

/-- The route's null check: `filterId === null || filterId === 'null' ||
filterId === ''`. -/
def isNullishFilterParam (p : Option JSStr) : Bool :=
  match p with
  | none => true
  | some s => s == jstr "null" || s == []

/-- The `WHERE` clause of the GET handler: for a null-ish request,
`filter_id IS NULL OR filter_id = ''`; otherwise `filter_id = ?`. -/
def rowMatchesParam (p : Option JSStr) (row : SummaryRow) : Bool :=
  if isNullishFilterParam p then
    row.filter_id == none || row.filter_id == some []
  else
    row.filter_id == p

/-- Keep the later-or-equal-timestamped of two candidate rows (ties go to the
row writen later, i.e. the one seen later in the scan). -/
def laterOf (acc : Option SummaryRow) (row : SummaryRow) : Option SummaryRow :=
  match acc with
  | none => some row
  | some best => if best.created_at ≤ row.created_at then some row else some best

/-- The GET handler's query `SELECT ... FROM matching_summary WHERE <identity>
ORDER BY created_at DESC LIMIT 1`: among the rows matching the requested
identity, the one with the greatest `created_at` (`none` when no row
matches). -/
def latestRow (rows : List SummaryRow) (p : Option JSStr) : Option SummaryRow :=
  (rows.filter (rowMatchesParam p)).foldl laterOf none

/-- How a `toUniqueSet` run extends one key's originals list: `vs ++ sel` when
the key was already present with list `vs`, the new occurrences `sel` alone
when it was absent and occurs, nothing otherwise. -/
def lookupMerge : Option (List JSStr) → List JSStr → Option (List JSStr)
  | some vs, sel => some (vs ++ sel)
  | none, sel => if sel = [] then none else some sel

/-! ### Character-level facts about the normalizer -/

theorem replChar_ne_nbsp (n : Nat) : replChar n ≠ 160 := by
  unfold replChar; split <;> omega

theorem replChar_eq_self {n : Nat} (h : n ≠ 160) : replChar n = n := by
  unfold replChar; rw [if_neg h]

theorem toLowerChar_ne_nbsp {n : Nat} (h : n ≠ 160) : toLowerChar n ≠ 160 := by
  unfold toLowerChar; split <;> omega

theorem toLowerChar_idem (n : Nat) : toLowerChar (toLowerChar n) = toLowerChar n := by
  unfold toLowerChar
  split
  · split <;> omega
  · rfl

theorem ws_toLowerChar (n : Nat) :
    jsWhitespaceChar (toLowerChar n) = jsWhitespaceChar n := by
  unfold toLowerChar
  split
  · have h1 : jsWhitespaceChar (n + 32) = false := by
      simp only [jsWhitespaceChar, Bool.or_eq_false_iff, beq_eq_false_iff_ne, ne_eq,
        Bool.and_eq_false_iff, decide_eq_false_iff_not, not_le]
      omega
    have h2 : jsWhitespaceChar n = false := by
      simp only [jsWhitespaceChar, Bool.or_eq_false_iff, beq_eq_false_iff_ne, ne_eq,
        Bool.and_eq_false_iff, decide_eq_false_iff_not, not_le]
      omega
    rw [h1, h2]
  · rfl

/-! ### Facts about `jsTrim` -/

theorem jsTrim_eq (s : JSStr) :
    jsTrim s = List.rdropWhile jsWhitespaceChar (List.dropWhile jsWhitespaceChar s) :=
  rfl

theorem dropWhile_jsTrim (s : JSStr) :
    List.dropWhile jsWhitespaceChar (jsTrim s) = jsTrim s := by
  rw [jsTrim_eq]
  rcases h : List.rdropWhile jsWhitespaceChar (List.dropWhile jsWhitespaceChar s)
    with _ | ⟨a, t⟩
  · simp
  · have hpre := List.rdropWhile_prefix jsWhitespaceChar
      (List.dropWhile jsWhitespaceChar s)
    rw [h] at hpre
    have hne : List.dropWhile jsWhitespaceChar s ≠ [] := by
      intro hnil
      rw [hnil] at hpre
      exact List.cons_ne_nil a t (List.prefix_nil.mp hpre)
    have hhead : a = (List.dropWhile jsWhitespaceChar s).head hne := by
      have := hpre.head (List.cons_ne_nil a t)
      simpa using this
    have hfa : jsWhitespaceChar a = false := by
      rw [hhead]
      exact List.head_dropWhile_not jsWhitespaceChar s hne
    simp [List.dropWhile_cons, hfa]

theorem jsTrim_idempotent (s : JSStr) : jsTrim (jsTrim s) = jsTrim s := by
  calc jsTrim (jsTrim s)
      = List.rdropWhile jsWhitespaceChar
          (List.dropWhile jsWhitespaceChar (jsTrim s)) := jsTrim_eq _
    _ = List.rdropWhile jsWhitespaceChar (jsTrim s) := by rw [dropWhile_jsTrim]
    _ = List.rdropWhile jsWhitespaceChar
          (List.rdropWhile jsWhitespaceChar (List.dropWhile jsWhitespaceChar s)) := by
        rw [jsTrim_eq]
    _ = List.rdropWhile jsWhitespaceChar (List.dropWhile jsWhitespaceChar s) :=
        List.rdropWhile_idempotent _ _
    _ = jsTrim s := (jsTrim_eq s).symm

theorem jsTrim_map (f : Nat → Nat)
    (hf : ∀ n, jsWhitespaceChar (f n) = jsWhitespaceChar n) (s : JSStr) :
    jsTrim (s.map f) = (jsTrim s).map f := by
  have hcomp : (jsWhitespaceChar ∘ f) = jsWhitespaceChar := funext hf
  unfold jsTrim
  rw [List.dropWhile_map, hcomp, ← List.map_reverse, List.dropWhile_map, hcomp,
    ← List.map_reverse]

theorem jsTrim_subset {x : Nat} {s : JSStr} (h : x ∈ jsTrim s) : x ∈ s := by
  rw [jsTrim_eq] at h
  have h1 : x ∈ List.dropWhile jsWhitespaceChar s :=
    (List.rdropWhile_prefix jsWhitespaceChar _).sublist.mem h
  exact (List.dropWhile_sublist jsWhitespaceChar).mem h1

/-! ### `normalizeLine` -/

theorem map_eq_self_of {α : Type} (f : α → α) (l : List α)
    (h : ∀ a ∈ l, f a = a) : l.map f = l := by
  induction l with
  | nil => rfl
  | cons a t ih =>
    rw [List.map_cons, h a (List.mem_cons_self a t), ih]
    intro b hb
    exact h b (List.mem_cons_of_mem a hb)

theorem map_comp_self {α : Type} (f : α → α) (hf : ∀ a, f (f a) = f a)
    (u : List α) : (u.map f).map f = u.map f := by
  rw [List.map_map]
  congr 1
  funext a
  exact hf a

theorem mem_normalizeLine_ne_nbsp {x : Nat} {line : JSStr} {o : NormalizeOptions}
    (hx : x ∈ normalizeLine line o) : x ≠ 160 := by
  have base : ∀ y ∈ line.map replChar, y ≠ 160 := by
    intro y hy
    rcases List.mem_map.mp hy with ⟨z, _, rfl⟩
    exact replChar_ne_nbsp z
  have trimmed :
      ∀ y ∈ (if o.trim then jsTrim (line.map replChar) else line.map replChar),
        y ≠ 160 := by
    intro y hy
    split at hy
    · exact base y (jsTrim_subset hy)
    · exact base y hy
  simp only [normalizeLine] at hx
  split at hx
  · rcases List.mem_map.mp hx with ⟨z, hz, rfl⟩
    exact toLowerChar_ne_nbsp (trimmed z hz)
  · exact trimmed x hx

theorem map_replChar_normalizeLine (line : JSStr) (o : NormalizeOptions) :
    (normalizeLine line o).map replChar = normalizeLine line o :=
  map_eq_self_of _ _ (fun _ ha => replChar_eq_self (mem_normalizeLine_ne_nbsp ha))

/-- C3: for every input string and every combination of the trim and
caseInsensitive options, `normalizeLine` is idempotent. -/
theorem claim_C3_normalizeLine_idempotent (x : JSStr) (options : NormalizeOptions) :
    normalizeLine (normalizeLine x options) options = normalizeLine x options := by
  rcases options with ⟨t, ci⟩
  cases t <;> cases ci
  · have hrepl := map_replChar_normalizeLine x ⟨false, false⟩
    exact hrepl
  · have hrepl := map_replChar_normalizeLine x ⟨false, true⟩
    show ((normalizeLine x ⟨false, true⟩).map replChar).map toLowerChar =
      normalizeLine x ⟨false, true⟩
    rw [hrepl]
    show ((x.map replChar).map toLowerChar).map toLowerChar =
      (x.map replChar).map toLowerChar
    exact map_comp_self toLowerChar toLowerChar_idem _
  · have hrepl := map_replChar_normalizeLine x ⟨true, false⟩
    show jsTrim ((normalizeLine x ⟨true, false⟩).map replChar) =
      normalizeLine x ⟨true, false⟩
    rw [hrepl]
    show jsTrim (jsTrim (x.map replChar)) = jsTrim (x.map replChar)
    exact jsTrim_idempotent _
  · have hrepl := map_replChar_normalizeLine x ⟨true, true⟩
    show (jsTrim ((normalizeLine x ⟨true, true⟩).map replChar)).map toLowerChar =
      normalizeLine x ⟨true, true⟩
    rw [hrepl]
    show (jsTrim ((jsTrim (x.map replChar)).map toLowerChar)).map toLowerChar =
      (jsTrim (x.map replChar)).map toLowerChar
    rw [jsTrim_map toLowerChar ws_toLowerChar, jsTrim_idempotent]
    exact map_comp_self toLowerChar toLowerChar_idem _

/-! ### Set operations -/

theorem mem_setAdd {s : List JSStr} {x y : JSStr} :
    x ∈ setAdd s y ↔ x ∈ s ∨ x = y := by
  by_cases h : y ∈ s
  · simp only [setAdd, if_pos h]
    constructor
    · exact Or.inl
    · rintro (hx | rfl)
      · exact hx
      · exact h
  · simp [setAdd, if_neg h]

theorem nodup_setAdd {s : List JSStr} (hs : s.Nodup) (y : JSStr) :
    (setAdd s y).Nodup := by
  by_cases h : y ∈ s
  · simpa [setAdd, if_pos h] using hs
  · rw [setAdd, if_neg h]
    refine hs.append (List.nodup_singleton y) ?_
    intro a ha hay
    rw [List.mem_singleton] at hay
    exact h (hay ▸ ha)

theorem foldl_inter_mem (larger : List JSStr) :
    ∀ (l r : List JSStr) (x : JSStr),
      x ∈ l.foldl (fun result item => if item ∈ larger then setAdd result item else result) r ↔
        x ∈ r ∨ (x ∈ l ∧ x ∈ larger) := by
  intro l
  induction l with
  | nil => intro r x; simp
  | cons a t ih =>
    intro r x
    rw [List.foldl_cons, ih]
    by_cases ha : a ∈ larger
    · rw [if_pos ha, mem_setAdd]
      constructor
      · rintro ((hr | rfl) | ht)
        · exact Or.inl hr
        · exact Or.inr ⟨List.mem_cons_self _ _, ha⟩
        · exact Or.inr ⟨List.mem_cons_of_mem _ ht.1, ht.2⟩
      · rintro (hr | ⟨hmem, hx⟩)
        · exact Or.inl (Or.inl hr)
        · rcases List.mem_cons.mp hmem with rfl | ht
          · exact Or.inl (Or.inr rfl)
          · exact Or.inr ⟨ht, hx⟩
    · rw [if_neg ha]
      constructor
      · rintro (hr | ht)
        · exact Or.inl hr
        · exact Or.inr ⟨List.mem_cons_of_mem _ ht.1, ht.2⟩
      · rintro (hr | ⟨hmem, hx⟩)
        · exact Or.inl hr
        · rcases List.mem_cons.mp hmem with rfl | ht
          · exact absurd hx ha
          · exact Or.inr ⟨ht, hx⟩

theorem foldl_inter_nodup (larger : List JSStr) :
    ∀ (l r : List JSStr), r.Nodup →
      (l.foldl (fun result item => if item ∈ larger then setAdd result item else result) r).Nodup := by
  intro l
  induction l with
  | nil => intro r hr; exact hr
  | cons a t ih =>
    intro r hr
    rw [List.foldl_cons]
    apply ih
    split
    · exact nodup_setAdd hr a
    · exact hr

theorem mem_setIntersection {a b : List JSStr} {x : JSStr} :
    x ∈ setIntersection a b ↔ x ∈ a ∧ x ∈ b := by
  simp only [setIntersection]
  by_cases h : a.length ≤ b.length
  · simp only [if_pos h]
    rw [foldl_inter_mem]
    simp
  · simp only [if_neg h]
    rw [foldl_inter_mem]
    simp [and_comm]

theorem nodup_setIntersection (a b : List JSStr) : (setIntersection a b).Nodup := by
  simp only [setIntersection]
  by_cases h : a.length ≤ b.length
  · simp only [if_pos h]
    exact foldl_inter_nodup _ _ _ List.nodup_nil
  · simp only [if_neg h]
    exact foldl_inter_nodup _ _ _ List.nodup_nil

theorem foldl_diff_mem (b : List JSStr) :
    ∀ (l r : List JSStr) (x : JSStr),
      x ∈ l.foldl (fun result item => if item ∈ b then result else setAdd result item) r ↔
        x ∈ r ∨ (x ∈ l ∧ x ∉ b) := by
  intro l
  induction l with
  | nil => intro r x; simp
  | cons a t ih =>
    intro r x
    rw [List.foldl_cons, ih]
    by_cases ha : a ∈ b
    · rw [if_pos ha]
      constructor
      · rintro (hr | ht)
        · exact Or.inl hr
        · exact Or.inr ⟨List.mem_cons_of_mem _ ht.1, ht.2⟩
      · rintro (hr | ⟨hmem, hx⟩)
        · exact Or.inl hr
        · rcases List.mem_cons.mp hmem with rfl | ht
          · exact absurd ha hx
          · exact Or.inr ⟨ht, hx⟩
    · rw [if_neg ha, mem_setAdd]
      constructor
      · rintro ((hr | rfl) | ht)
        · exact Or.inl hr
        · exact Or.inr ⟨List.mem_cons_self _ _, ha⟩
        · exact Or.inr ⟨List.mem_cons_of_mem _ ht.1, ht.2⟩
      · rintro (hr | ⟨hmem, hx⟩)
        · exact Or.inl (Or.inl hr)
        · rcases List.mem_cons.mp hmem with rfl | ht
          · exact Or.inl (Or.inr rfl)
          · exact Or.inr ⟨ht, hx⟩

theorem foldl_diff_nodup (b : List JSStr) :
    ∀ (l r : List JSStr), r.Nodup →
      (l.foldl (fun result item => if item ∈ b then result else setAdd result item) r).Nodup := by
  intro l
  induction l with
  | nil => intro r hr; exact hr
  | cons a t ih =>
    intro r hr
    rw [List.foldl_cons]
    apply ih
    split
    · exact hr
    · exact nodup_setAdd hr a

theorem mem_setDifference {a b : List JSStr} {x : JSStr} :
    x ∈ setDifference a b ↔ x ∈ a ∧ x ∉ b := by
  simp only [setDifference]
  rw [foldl_diff_mem]
  simp

theorem nodup_setDifference (a b : List JSStr) : (setDifference a b).Nodup :=
  foldl_diff_nodup _ _ _ List.nodup_nil

/-- C2: reconciliation is symmetric under side-swap — the matches of
`reconcile a b` and `reconcile b a` are the same set of keys (a permutation,
and extensionally equal), and the only-A set of `reconcile a b` is exactly
the only-B set of `reconcile b a`. -/
theorem claim_C2_reconcile_symmetric (a b : List JSStr) :
    (reconcile a b).matched.Perm ((reconcile b a).matched) ∧
    (∀ x, x ∈ (reconcile a b).matched ↔ x ∈ (reconcile b a).matched) ∧
    (reconcile a b).onlyA = (reconcile b a).onlyB := by
  have hmem : ∀ x, x ∈ (reconcile a b).matched ↔ x ∈ (reconcile b a).matched := by
    intro x
    show x ∈ setIntersection a b ↔ x ∈ setIntersection b a
    rw [mem_setIntersection, mem_setIntersection, and_comm]
  refine ⟨?_, hmem, rfl⟩
  exact (List.perm_ext_iff_of_nodup (nodup_setIntersection a b)
    (nodup_setIntersection b a)).mpr hmem

/-! ### Association-list facts -/

theorem mapLookup_mapUpsert_self (m : List (JSStr × List JSStr)) (k raw : JSStr) :
    mapLookup (mapUpsert m k raw) k = some ((mapLookup m k).getD [] ++ [raw]) := by
  induction m with
  | nil => simp [mapUpsert, mapLookup]
  | cons e rest ih =>
    rcases e with ⟨k', vs⟩
    by_cases h : k' = k
    · subst h
      simp [mapUpsert, mapLookup]
    · simp [mapUpsert, mapLookup, h, ih]

theorem mapLookup_mapUpsert_other (m : List (JSStr × List JSStr)) (k raw k' : JSStr)
    (h : k ≠ k') :
    mapLookup (mapUpsert m k raw) k' = mapLookup m k' := by
  induction m with
  | nil => simp [mapUpsert, mapLookup, h]
  | cons e rest ih =>
    rcases e with ⟨k0, vs⟩
    by_cases h0 : k0 = k
    · subst h0
      simp [mapUpsert, mapLookup, h]
    · simp [mapUpsert, mapLookup, h0, ih]

theorem mapLookup_mem : ∀ (m : List (JSStr × List JSStr)) (k : JSStr) (vs : List JSStr),
    mapLookup m k = some vs → (k, vs) ∈ m := by
  intro m
  induction m with
  | nil => intro k vs h; cases h
  | cons e rest ih =>
    rcases e with ⟨k', vs'⟩
    intro k vs h
    by_cases h0 : k' = k
    · subst h0
      have h' : vs' = vs := by simpa [mapLookup] using h
      subst h'
      exact List.mem_cons_self _ _
    · rw [mapLookup, if_neg h0] at h
      exact List.mem_cons_of_mem _ (ih k vs h)

theorem mapLookup_of_mem_nodup : ∀ (m : List (JSStr × List JSStr)),
    (m.map Prod.fst).Nodup → ∀ e ∈ m, mapLookup m e.1 = some e.2 := by
  intro m
  induction m with
  | nil => intro _ e he; cases he
  | cons e0 rest ih =>
    rcases e0 with ⟨k', vs⟩
    intro hnd e he
    rw [List.map_cons] at hnd
    rcases List.mem_cons.mp he with rfl | hrest
    · simp [mapLookup]
    · have hne : k' ≠ e.1 := by
        intro hc
        apply (List.nodup_cons.mp hnd).1
        rw [hc]
        exact List.mem_map.mpr ⟨e, hrest, rfl⟩
      rw [mapLookup, if_neg hne]
      exact ih (List.nodup_cons.mp hnd).2 e hrest

theorem mapUpsert_keys (m : List (JSStr × List JSStr)) (k raw : JSStr) :
    (mapUpsert m k raw).map Prod.fst = setAdd (m.map Prod.fst) k := by
  induction m with
  | nil => simp [mapUpsert, setAdd]
  | cons e rest ih =>
    rcases e with ⟨k', vs⟩
    by_cases h : k' = k
    · subst h
      have h1 : mapUpsert ((k', vs) :: rest) k' raw = (k', vs ++ [raw]) :: rest := by
        simp [mapUpsert]
      rw [h1, List.map_cons, List.map_cons, setAdd,
        if_pos (List.mem_cons_self _ _)]
    · have h1 : mapUpsert ((k', vs) :: rest) k raw = (k', vs) :: mapUpsert rest k raw := by
        simp [mapUpsert, h]
      rw [h1, List.map_cons, List.map_cons, ih]
      by_cases hk : k ∈ rest.map Prod.fst
      · rw [setAdd, if_pos hk, setAdd, if_pos (List.mem_cons_of_mem _ hk)]
      · have hk2 : k ∉ (k' :: rest.map Prod.fst) := by
          intro hc
          rcases List.mem_cons.mp hc with hc1 | hc2
          · exact h hc1.symm
          · exact hk hc2
        rw [setAdd, if_neg hk, setAdd, if_neg hk2, List.cons_append]

theorem mapUpsert_sum (m : List (JSStr × List JSStr)) (k raw : JSStr) :
    ((mapUpsert m k raw).map (fun e => e.2.length)).sum =
      (m.map (fun e => e.2.length)).sum + 1 := by
  induction m with
  | nil => simp [mapUpsert]
  | cons e rest ih =>
    rcases e with ⟨k', vs⟩
    by_cases h : k' = k
    · subst h
      simp [mapUpsert]
      omega
    · simp [mapUpsert, h, ih]
      omega

theorem mapUpsert_values : ∀ (m : List (JSStr × List JSStr)) (k raw : JSStr),
    (∀ e ∈ m, e.2 ≠ []) → ∀ e ∈ mapUpsert m k raw, e.2 ≠ [] := by
  intro m
  induction m with
  | nil =>
    intro k raw _ e he
    simp only [mapUpsert, List.mem_singleton] at he
    subst he
    simp
  | cons e0 rest ih =>
    rcases e0 with ⟨k', vs⟩
    intro k raw h e he
    by_cases h0 : k' = k
    · subst h0
      rw [show mapUpsert ((k', vs) :: rest) k' raw = (k', vs ++ [raw]) :: rest from by
        simp [mapUpsert]] at he
      rcases List.mem_cons.mp he with rfl | hrest
      · simp
      · exact h _ (List.mem_cons_of_mem _ hrest)
    · rw [show mapUpsert ((k', vs) :: rest) k raw = (k', vs) :: mapUpsert rest k raw from by
        simp [mapUpsert, h0]] at he
      rcases List.mem_cons.mp he with rfl | hrest
      · exact h _ (List.mem_cons_self _ _)
      · exact ih k raw (fun e' he' => h e' (List.mem_cons_of_mem _ he')) e hrest

theorem mapUpsert_keys_ne : ∀ (m : List (JSStr × List JSStr)) (k raw : JSStr),
    k ≠ [] → (∀ e ∈ m, e.1 ≠ []) → ∀ e ∈ mapUpsert m k raw, e.1 ≠ [] := by
  intro m
  induction m with
  | nil =>
    intro k raw hk _ e he
    simp only [mapUpsert, List.mem_singleton] at he
    subst he
    exact hk
  | cons e0 rest ih =>
    rcases e0 with ⟨k', vs⟩
    intro k raw hk h e he
    by_cases h0 : k' = k
    · subst h0
      rw [show mapUpsert ((k', vs) :: rest) k' raw = (k', vs ++ [raw]) :: rest from by
        simp [mapUpsert]] at he
      rcases List.mem_cons.mp he with rfl | hrest
      · exact h (k', vs) (List.mem_cons_self _ _)
      · exact h _ (List.mem_cons_of_mem _ hrest)
    · rw [show mapUpsert ((k', vs) :: rest) k raw = (k', vs) :: mapUpsert rest k raw from by
        simp [mapUpsert, h0]] at he
      rcases List.mem_cons.mp he with rfl | hrest
      · exact h _ (List.mem_cons_self _ _)
      · exact ih k raw hk (fun e' he' => h e' (List.mem_cons_of_mem _ he')) e hrest

/-! ### Invariants of the `toUniqueSet` fold -/

theorem foldl_step_nodup (o : NormalizeOptions) :
    ∀ (lines : List JSStr) (st : List JSStr × List (JSStr × List JSStr) × Nat),
      st.1.Nodup → ((lines.foldl (toUniqueSetStep o) st).1).Nodup := by
  intro lines
  induction lines with
  | nil => intro st h; exact h
  | cons raw t ih =>
    intro st h
    rw [List.foldl_cons]
    apply ih
    simp only [toUniqueSetStep]
    split
    · exact h
    · exact nodup_setAdd h _

theorem foldl_step_total (o : NormalizeOptions) :
    ∀ (lines : List JSStr) (st : List JSStr × List (JSStr × List JSStr) × Nat),
      (lines.foldl (toUniqueSetStep o) st).2.2 =
        st.2.2 + (lines.filter (fun raw => decide ((normalizeLine raw o).length ≠ 0))).length := by
  intro lines
  induction lines with
  | nil => intro st; simp
  | cons raw t ih =>
    intro st
    rw [List.foldl_cons, ih, List.filter_cons]
    by_cases h : (normalizeLine raw o).length = 0
    · have hstep : toUniqueSetStep o st raw = st := by
        simp only [toUniqueSetStep]
        rw [if_pos h]
      rw [hstep]
      simp [h]
    · have hstep : (toUniqueSetStep o st raw).2.2 = st.2.2 + 1 := by
        simp only [toUniqueSetStep]
        rw [if_neg h]
      rw [hstep]
      have hp : decide ((normalizeLine raw o).length ≠ 0) = true := by simp [h]
      rw [hp, if_pos rfl, List.length_cons]
      omega

theorem foldl_step_set_mem (o : NormalizeOptions) :
    ∀ (lines : List JSStr) (st : List JSStr × List (JSStr × List JSStr) × Nat) (x : JSStr),
      x ∈ (lines.foldl (toUniqueSetStep o) st).1 ↔
        x ∈ st.1 ∨ ∃ raw ∈ lines, normalizeLine raw o = x ∧ x ≠ [] := by
  intro lines
  induction lines with
  | nil => intro st x; simp
  | cons raw t ih =>
    intro st x
    rw [List.foldl_cons, ih]
    by_cases h : (normalizeLine raw o).length = 0
    · have hstep : toUniqueSetStep o st raw = st := by
        simp only [toUniqueSetStep]
        rw [if_pos h]
      rw [hstep]
      have hnil : normalizeLine raw o = [] := List.length_eq_zero.mp h
      constructor
      · rintro (hst | ⟨r, hr, hnorm, hne⟩)
        · exact Or.inl hst
        · exact Or.inr ⟨r, List.mem_cons_of_mem _ hr, hnorm, hne⟩
      · rintro (hst | ⟨r, hr, hnorm, hne⟩)
        · exact Or.inl hst
        · rcases List.mem_cons.mp hr with rfl | hrt
          · exact absurd (hnorm.symm.trans hnil) hne
          · exact Or.inr ⟨r, hrt, hnorm, hne⟩
    · have hstep : (toUniqueSetStep o st raw).1 = setAdd st.1 (normalizeLine raw o) := by
        simp only [toUniqueSetStep]
        rw [if_neg h]
      rw [hstep, mem_setAdd]
      have hne' : normalizeLine raw o ≠ [] := by
        intro hc
        exact h (by rw [hc]; rfl)
      constructor
      · rintro ((hst | rfl) | ⟨r, hr, hnorm, hne⟩)
        · exact Or.inl hst
        · exact Or.inr ⟨raw, List.mem_cons_self _ _, rfl, hne'⟩
        · exact Or.inr ⟨r, List.mem_cons_of_mem _ hr, hnorm, hne⟩
      · rintro (hst | ⟨r, hr, hnorm, hne⟩)
        · exact Or.inl (Or.inl hst)
        · rcases List.mem_cons.mp hr with rfl | hrt
          · exact Or.inl (Or.inr hnorm.symm)
          · exact Or.inr ⟨r, hrt, hnorm, hne⟩

theorem foldl_step_keys (o : NormalizeOptions) :
    ∀ (lines : List JSStr) (st : List JSStr × List (JSStr × List JSStr) × Nat),
      st.1 = st.2.1.map Prod.fst →
      (lines.foldl (toUniqueSetStep o) st).1 =
        (lines.foldl (toUniqueSetStep o) st).2.1.map Prod.fst := by
  intro lines
  induction lines with
  | nil => intro st h; exact h
  | cons raw t ih =>
    intro st h
    rw [List.foldl_cons]
    apply ih
    simp only [toUniqueSetStep]
    split
    · exact h
    · show setAdd st.1 _ = (mapUpsert st.2.1 _ raw).map Prod.fst
      rw [mapUpsert_keys, h]

theorem foldl_step_sum (o : NormalizeOptions) :
    ∀ (lines : List JSStr) (st : List JSStr × List (JSStr × List JSStr) × Nat),
      (st.2.1.map (fun e => e.2.length)).sum = st.2.2 →
      ((lines.foldl (toUniqueSetStep o) st).2.1.map (fun e => e.2.length)).sum =
        (lines.foldl (toUniqueSetStep o) st).2.2 := by
  intro lines
  induction lines with
  | nil => intro st h; exact h
  | cons raw t ih =>
    intro st h
    rw [List.foldl_cons]
    apply ih
    simp only [toUniqueSetStep]
    split
    · exact h
    · show ((mapUpsert st.2.1 _ raw).map (fun e => e.2.length)).sum = st.2.2 + 1
      rw [mapUpsert_sum, h]

theorem foldl_step_values (o : NormalizeOptions) :
    ∀ (lines : List JSStr) (st : List JSStr × List (JSStr × List JSStr) × Nat),
      (∀ e ∈ st.2.1, e.2 ≠ []) →
      ∀ e ∈ (lines.foldl (toUniqueSetStep o) st).2.1, e.2 ≠ [] := by
  intro lines
  induction lines with
  | nil => intro st h; exact h
  | cons raw t ih =>
    intro st h
    rw [List.foldl_cons]
    apply ih
    simp only [toUniqueSetStep]
    split
    · exact h
    · exact mapUpsert_values st.2.1 _ raw h

theorem foldl_step_keys_nonempty (o : NormalizeOptions) :
    ∀ (lines : List JSStr) (st : List JSStr × List (JSStr × List JSStr) × Nat),
      (∀ e ∈ st.2.1, e.1 ≠ []) →
      ∀ e ∈ (lines.foldl (toUniqueSetStep o) st).2.1, e.1 ≠ [] := by
  intro lines
  induction lines with
  | nil => intro st h; exact h
  | cons raw t ih =>
    intro st h
    rw [List.foldl_cons]
    apply ih
    simp only [toUniqueSetStep]
    split
    · exact h
    · refine mapUpsert_keys_ne st.2.1 _ raw ?_ h
      rename_i hlen
      intro hc
      exact hlen (by rw [hc]; rfl)

theorem foldl_step_lookup (o : NormalizeOptions) (k : JSStr) (hk : k ≠ []) :
    ∀ (lines : List JSStr) (st : List JSStr × List (JSStr × List JSStr) × Nat),
      mapLookup (lines.foldl (toUniqueSetStep o) st).2.1 k =
        lookupMerge (mapLookup st.2.1 k)
          (lines.filter (fun raw => decide (normalizeLine raw o = k))) := by
  intro lines
  induction lines with
  | nil =>
    intro st
    rcases h : mapLookup st.2.1 k with _ | vs <;> simp [lookupMerge, h]
  | cons raw t ih =>
    intro st
    rw [List.foldl_cons, ih, List.filter_cons]
    by_cases h : (normalizeLine raw o).length = 0
    · have hnil := List.length_eq_zero.mp h
      have hstep : toUniqueSetStep o st raw = st := by
        simp only [toUniqueSetStep]
        rw [if_pos h]
      have hp : decide (normalizeLine raw o = k) = false := by
        simp only [hnil, decide_eq_false_iff_not]
        exact fun hc => hk hc.symm
      rw [hstep, hp]
      simp
    · by_cases hek : normalizeLine raw o = k
      · have hstep : (toUniqueSetStep o st raw).2.1 = mapUpsert st.2.1 k raw := by
          simp only [toUniqueSetStep]
          rw [if_neg h, hek]
        have hp : decide (normalizeLine raw o = k) = true := by simp [hek]
        rw [hstep, hp, mapLookup_mapUpsert_self]
        rcases hl : mapLookup st.2.1 k with _ | vs
        · simp [lookupMerge]
        · simp [lookupMerge]
      · have hstep : (toUniqueSetStep o st raw).2.1 = mapUpsert st.2.1 (normalizeLine raw o) raw := by
          simp only [toUniqueSetStep]
          rw [if_neg h]
        have hp : decide (normalizeLine raw o = k) = false := by simp [hek]
        rw [hstep, hp, mapLookup_mapUpsert_other _ _ _ _ hek]
        simp

/-! ### `toUniqueSet`-level corollaries -/

theorem toUniqueSet_set_nodup (lines : List JSStr) (o : NormalizeOptions) :
    (toUniqueSet lines o).set.Nodup :=
  foldl_step_nodup o lines ([], [], 0) List.nodup_nil

theorem toUniqueSet_keys (lines : List JSStr) (o : NormalizeOptions) :
    (toUniqueSet lines o).set =
      (toUniqueSet lines o).normalizedToOriginals.map Prod.fst :=
  foldl_step_keys o lines ([], [], 0) rfl

theorem toUniqueSet_total (lines : List JSStr) (o : NormalizeOptions) :
    (toUniqueSet lines o).totalCount =
      (lines.filter (fun raw => decide ((normalizeLine raw o).length ≠ 0))).length := by
  have h := foldl_step_total o lines ([], [], 0)
  simpa using h

theorem toUniqueSet_sum (lines : List JSStr) (o : NormalizeOptions) :
    ((toUniqueSet lines o).normalizedToOriginals.map (fun e => e.2.length)).sum =
      (toUniqueSet lines o).totalCount :=
  foldl_step_sum o lines ([], [], 0) rfl

theorem toUniqueSet_values_nonempty (lines : List JSStr) (o : NormalizeOptions) :
    ∀ e ∈ (toUniqueSet lines o).normalizedToOriginals, e.2 ≠ [] :=
  foldl_step_values o lines ([], [], 0) (by intro e he; cases he)

theorem toUniqueSet_keys_nonempty (lines : List JSStr) (o : NormalizeOptions) :
    ∀ e ∈ (toUniqueSet lines o).normalizedToOriginals, e.1 ≠ [] :=
  foldl_step_keys_nonempty o lines ([], [], 0) (by intro e he; cases he)

theorem toUniqueSet_lookup (lines : List JSStr) (o : NormalizeOptions) (k : JSStr)
    (hk : k ≠ []) :
    mapLookup (toUniqueSet lines o).normalizedToOriginals k =
      lookupMerge none (lines.filter (fun raw => decide (normalizeLine raw o = k))) :=
  foldl_step_lookup o k hk lines ([], [], 0)

theorem length_le_sum_of_all_pos : ∀ (l : List Nat), (∀ n ∈ l, 1 ≤ n) →
    l.length ≤ l.sum := by
  intro l
  induction l with
  | nil => intro _; simp
  | cons n t ih =>
    intro h
    have h1 := h n (List.mem_cons_self _ _)
    have h2 := ih (fun m hm => h m (List.mem_cons_of_mem _ hm))
    simp only [List.length_cons, List.sum_cons]
    omega

theorem filter_head?_eq_find? {α : Type} (p : α → Bool) :
    ∀ (l : List α), (l.filter p).head? = l.find? p := by
  intro l
  induction l with
  | nil => rfl
  | cons a t ih =>
    rw [List.filter_cons, List.find?_cons]
    by_cases h : p a
    · rw [if_pos h, h]
      rfl
    · rw [if_neg h]
      have : p a = false := Bool.eq_false_iff.mpr h
      rw [this]
      exact ih

/-- C1: for name sets produced by `toUniqueSet`, the reconciliation results
partition the key sets — matches is exactly the intersection, it is disjoint
from both only-sides, matches ∪ onlyA covers the keys of A, matches ∪ onlyB
covers the keys of B, and |matches| + |onlyA| = uniqueCount(A). -/
theorem claim_C1_partition (linesA linesB : List JSStr) (o : NormalizeOptions) :
    (∀ x, x ∈ setIntersection (toUniqueSet linesA o).set (toUniqueSet linesB o).set ↔
        x ∈ (toUniqueSet linesA o).set ∧ x ∈ (toUniqueSet linesB o).set) ∧
    (∀ x, ¬(x ∈ setIntersection (toUniqueSet linesA o).set (toUniqueSet linesB o).set ∧
        x ∈ setDifference (toUniqueSet linesA o).set (toUniqueSet linesB o).set)) ∧
    (∀ x, ¬(x ∈ setIntersection (toUniqueSet linesA o).set (toUniqueSet linesB o).set ∧
        x ∈ setDifference (toUniqueSet linesB o).set (toUniqueSet linesA o).set)) ∧
    (∀ x, x ∈ (toUniqueSet linesA o).set ↔
        (x ∈ setIntersection (toUniqueSet linesA o).set (toUniqueSet linesB o).set ∨
         x ∈ setDifference (toUniqueSet linesA o).set (toUniqueSet linesB o).set)) ∧
    (∀ x, x ∈ (toUniqueSet linesB o).set ↔
        (x ∈ setIntersection (toUniqueSet linesA o).set (toUniqueSet linesB o).set ∨
         x ∈ setDifference (toUniqueSet linesB o).set (toUniqueSet linesA o).set)) ∧
    (setIntersection (toUniqueSet linesA o).set (toUniqueSet linesB o).set).length +
      (setDifference (toUniqueSet linesA o).set (toUniqueSet linesB o).set).length =
      (toUniqueSet linesA o).uniqueCount := by
  refine ⟨?_, ?_, ?_, ?_, ?_, ?_⟩
  · intro x
    exact mem_setIntersection
  · rintro x ⟨hm, ho⟩
    exact (mem_setDifference.mp ho).2 (mem_setIntersection.mp hm).2
  · rintro x ⟨hm, ho⟩
    exact (mem_setDifference.mp ho).2 (mem_setIntersection.mp hm).1
  · intro x
    rw [mem_setIntersection, mem_setDifference]
    by_cases hb : x ∈ (toUniqueSet linesB o).set <;> tauto
  · intro x
    rw [mem_setIntersection, mem_setDifference]
    by_cases hb : x ∈ (toUniqueSet linesA o).set <;> tauto
  · have hA := toUniqueSet_set_nodup linesA o
    have hm := nodup_setIntersection (toUniqueSet linesA o).set (toUniqueSet linesB o).set
    have hd := nodup_setDifference (toUniqueSet linesA o).set (toUniqueSet linesB o).set
    have hdisj : (setIntersection (toUniqueSet linesA o).set (toUniqueSet linesB o).set).Disjoint
        (setDifference (toUniqueSet linesA o).set (toUniqueSet linesB o).set) := by
      intro x hx hy
      exact (mem_setDifference.mp hy).2 (mem_setIntersection.mp hx).2
    have hperm : (setIntersection (toUniqueSet linesA o).set (toUniqueSet linesB o).set ++
        setDifference (toUniqueSet linesA o).set (toUniqueSet linesB o).set).Perm
        (toUniqueSet linesA o).set := by
      refine (List.perm_ext_iff_of_nodup (hm.append hd hdisj) hA).mpr ?_
      intro x
      rw [List.mem_append, mem_setIntersection, mem_setDifference]
      by_cases hb : x ∈ (toUniqueSet linesB o).set <;> tauto
    have hlen := hperm.length_eq
    rw [List.length_append] at hlen
    exact hlen

/-- C5: the `NameSet` returned by `toUniqueSet` satisfies uniqueCount =
|entries|, totalCount ≥ uniqueCount, totalCount counts exactly the lines
whose normalization is non-empty (duplicates included), and every present
key's originals list is non-empty and preserves input order (it is a sublist
of the input lines). -/
theorem claim_C5_nameset_invariants (lines : List JSStr) (o : NormalizeOptions) :
    (toUniqueSet lines o).uniqueCount = (toUniqueSet lines o).normalizedToOriginals.length ∧
    (toUniqueSet lines o).uniqueCount ≤ (toUniqueSet lines o).totalCount ∧
    (toUniqueSet lines o).totalCount =
      (lines.filter (fun raw => decide ((normalizeLine raw o).length ≠ 0))).length ∧
    (∀ e ∈ (toUniqueSet lines o).normalizedToOriginals, e.2 ≠ [] ∧ e.2.Sublist lines) := by
  have hkeys := toUniqueSet_keys lines o
  have huniq : (toUniqueSet lines o).uniqueCount =
      (toUniqueSet lines o).normalizedToOriginals.length := by
    show (toUniqueSet lines o).set.length = _
    rw [hkeys, List.length_map]
  refine ⟨huniq, ?_, toUniqueSet_total lines o, ?_⟩
  · have hsum := toUniqueSet_sum lines o
    have hpos : ∀ n ∈ (toUniqueSet lines o).normalizedToOriginals.map (fun e => e.2.length),
        1 ≤ n := by
      intro n hn
      rcases List.mem_map.mp hn with ⟨e, he, rfl⟩
      exact List.length_pos.mpr (toUniqueSet_values_nonempty lines o e he)
    have hle := length_le_sum_of_all_pos _ hpos
    rw [List.length_map, hsum] at hle
    rw [huniq]
    exact hle
  · intro e he
    refine ⟨toUniqueSet_values_nonempty lines o e he, ?_⟩
    have hnd : ((toUniqueSet lines o).normalizedToOriginals.map Prod.fst).Nodup := by
      rw [← hkeys]
      exact toUniqueSet_set_nodup lines o
    have hlook := mapLookup_of_mem_nodup _ hnd e he
    have hk := toUniqueSet_keys_nonempty lines o e he
    rw [toUniqueSet_lookup lines o e.1 hk] at hlook
    rcases hsel : lines.filter (fun raw => decide (normalizeLine raw o = e.1)) with _ | ⟨v, t⟩
    · rw [hsel] at hlook
      simp [lookupMerge] at hlook
    · rw [hsel] at hlook
      simp only [lookupMerge] at hlook
      rw [if_neg (List.cons_ne_nil v t)] at hlook
      have h2 : v :: t = e.2 := Option.some.inj hlook
      rw [← h2, ← hsel]
      exact List.filter_sublist lines

/-- C10: the originals list of each present normalized key `k` is exactly the
raw input lines whose normalization equals `k`, in input order; its first
element is the first such raw occurrence, and the originals lists' lengths
sum to `totalCount`. -/
theorem claim_C10_originals_exact (lines : List JSStr) (o : NormalizeOptions)
    (k : JSStr) (vs : List JSStr)
    (h : mapLookup (toUniqueSet lines o).normalizedToOriginals k = some vs) :
    vs = lines.filter (fun raw => decide (normalizeLine raw o = k)) ∧
    vs.head? = lines.find? (fun raw => decide (normalizeLine raw o = k)) ∧
    ((toUniqueSet lines o).normalizedToOriginals.map (fun e => e.2.length)).sum =
      (toUniqueSet lines o).totalCount := by
  have hk : k ≠ [] :=
    toUniqueSet_keys_nonempty lines o (k, vs) (mapLookup_mem _ k vs h)
  rw [toUniqueSet_lookup lines o k hk] at h
  rcases hsel : lines.filter (fun raw => decide (normalizeLine raw o = k)) with _ | ⟨v, t⟩
  · rw [hsel] at h
    simp [lookupMerge] at h
  · rw [hsel] at h
    simp only [lookupMerge] at h
    rw [if_neg (List.cons_ne_nil v t)] at h
    have h2 : v :: t = vs := Option.some.inj h
    refine ⟨h2.symm, ?_, toUniqueSet_sum lines o⟩
    rw [← h2, ← filter_head?_eq_find?, hsel]

/-- Witness for C10 at the concrete end-to-end inputs. -/
theorem claim_C10_witness :
    mapLookup (toUniqueSet [jstr "Acme Inc", jstr "Acme Inc", jstr "Globex"]
        ⟨true, true⟩).normalizedToOriginals (jstr "acme inc") =
      some [jstr "Acme Inc", jstr "Acme Inc"] ∧
    [jstr "Acme Inc", jstr "Acme Inc"] =
      [jstr "Acme Inc", jstr "Acme Inc", jstr "Globex"].filter
        (fun raw => decide (normalizeLine raw ⟨true, true⟩ = jstr "acme inc")) :=
  ⟨by decide, (claim_C10_originals_exact _ _ _ _ (by decide)).1⟩

theorem ws_replChar (n : Nat) : jsWhitespaceChar (replChar n) = jsWhitespaceChar n := by
  unfold replChar
  split
  · rename_i h
    subst h
    decide
  · rfl

theorem normalizeLine_all_ws_nil {l : JSStr} {o : NormalizeOptions} (ht : o.trim = true)
    (hws : ∀ c ∈ l, jsWhitespaceChar c = true) : normalizeLine l o = [] := by
  have h1 : ∀ c ∈ l.map replChar, jsWhitespaceChar c = true := by
    intro c hc
    rcases List.mem_map.mp hc with ⟨d, hd, rfl⟩
    rw [ws_replChar]
    exact hws d hd
  have h2 : jsTrim (l.map replChar) = [] := by
    unfold jsTrim
    rw [List.dropWhile_eq_nil_iff.mpr h1]
    rfl
  rcases o with ⟨t, ci⟩
  simp only at ht
  subst ht
  cases ci
  · show jsTrim (l.map replChar) = []
    exact h2
  · show (jsTrim (l.map replChar)).map toLowerChar = []
    rw [h2]
    rfl

/-- Counterexample for C6: with `trim = false`, the single line `" "` (one
space, a whitespace-only line) is not blank after normalization, so it is
counted — the claim's `totalCount = 0 ∧ uniqueCount = 0` fails for this
options value. -/
theorem claim_C6_counterexample :
    (∀ c ∈ ([32] : JSStr), jsWhitespaceChar c = true) ∧
    ¬((toUniqueSet [[32]] ⟨false, false⟩).totalCount = 0 ∧
      (toUniqueSet [[32]] ⟨false, false⟩).uniqueCount = 0) := by
  decide

/-- C6 as amended: for every options value with `trim = true`, an input
consisting only of whitespace/non-breaking-space lines yields
`totalCount = 0` and `uniqueCount = 0` (each such line normalizes to the
empty string and is excluded); without trimming only genuinely empty lines
are excluded. -/
theorem claim_C6_amended (lines : List JSStr) (o : NormalizeOptions)
    (ht : o.trim = true)
    (hws : ∀ l ∈ lines, ∀ c ∈ l, jsWhitespaceChar c = true) :
    (toUniqueSet lines o).totalCount = 0 ∧ (toUniqueSet lines o).uniqueCount = 0 := by
  have hnil : ∀ l ∈ lines, normalizeLine l o = [] := fun l hl =>
    normalizeLine_all_ws_nil ht (hws l hl)
  constructor
  · rw [toUniqueSet_total]
    have hfilter :
        lines.filter (fun raw => decide ((normalizeLine raw o).length ≠ 0)) = [] := by
      rw [List.filter_eq_nil_iff]
      intro a ha
      simp [hnil a ha]
    rw [hfilter]
    rfl
  · have hmem : ∀ x, x ∉ (toUniqueSet lines o).set := by
      intro x hx
      rcases (foldl_step_set_mem o lines ([], [], 0) x).mp hx with h0 | ⟨raw, hr, hnorm, hne⟩
      · cases h0
      · exact hne (hnorm.symm.trans (hnil raw hr))
    have hsetnil : (toUniqueSet lines o).set = [] :=
      List.eq_nil_iff_forall_not_mem.mpr hmem
    show (toUniqueSet lines o).set.length = 0
    rw [hsetnil]
    rfl

/-- Witness for the amended C6: two whitespace/NBSP-only lines under
`{trim := true, caseInsensitive := true}` produce empty counts. -/
theorem claim_C6_witness :
    (toUniqueSet [[32, 160], [9]] ⟨true, true⟩).totalCount = 0 ∧
    (toUniqueSet [[32, 160], [9]] ⟨true, true⟩).uniqueCount = 0 :=
  claim_C6_amended [[32, 160], [9]] ⟨true, true⟩ rfl (by decide)

/-- C4: the concrete end-to-end scenario — side A `["Acme Inc", "Acme Inc",
"Globex"]`, side B `["acme inc", "Initech"]`, options
`{trim: true, caseInsensitive: true}` — yields aTotal=3, aUnique=2,
bTotal=2, bUnique=2, matches {"acme inc"}, onlyA {"globex"},
onlyB {"initech"}. -/
theorem claim_C4_end_to_end :
    (toUniqueSet [jstr "Acme Inc", jstr "Acme Inc", jstr "Globex"] ⟨true, true⟩).totalCount = 3 ∧
    (toUniqueSet [jstr "Acme Inc", jstr "Acme Inc", jstr "Globex"] ⟨true, true⟩).uniqueCount = 2 ∧
    (toUniqueSet [jstr "acme inc", jstr "Initech"] ⟨true, true⟩).totalCount = 2 ∧
    (toUniqueSet [jstr "acme inc", jstr "Initech"] ⟨true, true⟩).uniqueCount = 2 ∧
    setIntersection (toUniqueSet [jstr "Acme Inc", jstr "Acme Inc", jstr "Globex"] ⟨true, true⟩).set
      (toUniqueSet [jstr "acme inc", jstr "Initech"] ⟨true, true⟩).set = [jstr "acme inc"] ∧
    setDifference (toUniqueSet [jstr "Acme Inc", jstr "Acme Inc", jstr "Globex"] ⟨true, true⟩).set
      (toUniqueSet [jstr "acme inc", jstr "Initech"] ⟨true, true⟩).set = [jstr "globex"] ∧
    setDifference (toUniqueSet [jstr "acme inc", jstr "Initech"] ⟨true, true⟩).set
      (toUniqueSet [jstr "Acme Inc", jstr "Acme Inc", jstr "Globex"] ⟨true, true⟩).set =
      [jstr "initech"] := by
  decide

/-! ### Filter-reference extraction -/

theorem firstDigitRun_eq_none_iff : ∀ (s : JSStr),
    firstDigitRun s = none ↔ ∀ c ∈ s, isDigitCp c = false := by
  intro s
  induction s with
  | nil => simp [firstDigitRun]
  | cons c rest ih =>
    simp only [firstDigitRun]
    by_cases h : isDigitCp c = true
    · rw [if_pos h]
      constructor
      · intro hc
        cases hc
      · intro hall
        have hc := hall c (List.mem_cons_self _ _)
        rw [h] at hc
        cases hc
    · rw [if_neg h, ih]
      constructor
      · intro hall d hd
        rcases List.mem_cons.mp hd with rfl | hdr
        · exact Bool.eq_false_iff.mpr h
        · exact hall d hdr
      · intro hall d hd
        exact hall d (List.mem_cons_of_mem _ hd)

theorem searchLitDigits_eq_none_of_no_digits (pat : JSStr) :
    ∀ (s : JSStr), (∀ c ∈ s, isDigitCp c = false) → searchLitDigits pat s = none := by
  intro s
  induction s with
  | nil => intro _; rfl
  | cons c rest ih =>
    intro hall
    have hcond : (pat.isPrefixOf (c :: rest) &&
        !(((c :: rest).drop pat.length).takeWhile isDigitCp).isEmpty) = false := by
      rcases hd : (c :: rest).drop pat.length with _ | ⟨d, t⟩
      · simp [hd]
      · have hdmem : d ∈ c :: rest :=
          List.mem_of_mem_drop (by rw [hd]; exact List.mem_cons_self _ _)
        have hdig : isDigitCp d = false := hall d hdmem
        simp [hd, List.takeWhile, hdig]
    simp only [searchLitDigits]
    split
    · rename_i hcond2
      exact absurd (hcond.symm.trans hcond2) Bool.false_ne_true
    · exact ih (fun d hd => hall d (List.mem_cons_of_mem _ hd))

/-- C7: `resolveFilterReference` extracts the digit run after `filters/`,
else the `filter_id` query value, else the first digit run anywhere, and
fails with `InvalidReferenceError` exactly when the reference contains no
digits; the three documented URL examples extract as stated. -/
theorem claim_C7_resolveFilterReference :
    resolveFilterReference (jstr "https://x/filters/12345") = .ok (jstr "12345") ∧
    resolveFilterReference (jstr "https://x/organizations?filter_id=67890") =
      .ok (jstr "67890") ∧
    resolveFilterReference (jstr "https://x/filters/11111?view=list") =
      .ok (jstr "11111") ∧
    ∀ s : JSStr,
      (∃ e, resolveFilterReference s = .error e) ↔ ∀ c ∈ s, isDigitCp c = false := by
  refine ⟨by rfl, by rfl, by rfl, ?_⟩
  intro s
  constructor
  · rintro ⟨e, he⟩
    unfold resolveFilterReference at he
    rcases h1 : searchLitDigits (jstr "filters/") s with _ | d1
    · rw [h1] at he
      rcases h2 : searchLitDigits (jstr "filter_id=") s with _ | d2
      · rw [h2] at he
        rcases h3 : firstDigitRun s with _ | d3
        · exact (firstDigitRun_eq_none_iff s).mp h3
        · rw [h3] at he
          cases he
      · rw [h2] at he
        cases he
    · rw [h1] at he
      cases he
  · intro hall
    refine ⟨{}, ?_⟩
    unfold resolveFilterReference
    rw [searchLitDigits_eq_none_of_no_digits _ s hall,
      searchLitDigits_eq_none_of_no_digits _ s hall,
      (firstDigitRun_eq_none_iff s).mpr hall]

/-- Witness for C7: the first documented URL example. -/
theorem claim_C7_witness :
    resolveFilterReference (jstr "https://x/filters/12345") = .ok (jstr "12345") :=
  claim_C7_resolveFilterReference.1

/-! ### Result cache -/

theorem getLatestCache_append_self (log : List (Option JSStr × ReconciliationSummary))
    (fid : Option JSStr) (s : ReconciliationSummary) :
    getLatestCache (log ++ [(fid, s)]) fid = some s := by
  induction log with
  | nil => simp [getLatestCache]
  | cons row rest ih =>
    rw [List.cons_append]
    simp only [getLatestCache]
    rw [ih]

/-- C8: with `forceRefresh = false` and no intervening writes, two
consecutive `runMatching` calls for the same filter identity return the same
summary and the second reports `fromCache = true`. -/
theorem claim_C8_cache_idempotent (compute : Option JSStr → ReconciliationSummary)
    (log : List (Option JSStr × ReconciliationSummary)) (fid : Option JSStr) :
    (runMatching compute (runMatching compute log fid false).2.2 fid false).1 =
      (runMatching compute log fid false).1 ∧
    (runMatching compute (runMatching compute log fid false).2.2 fid false).2.1 = true := by
  have hrm : ∀ (lg : List (Option JSStr × ReconciliationSummary)),
      runMatching compute lg fid false =
        match getLatestCache lg fid with
        | some s => (s, true, lg)
        | none => (compute fid, false, putCache lg fid (compute fid)) := by
    intro lg
    rfl
  rcases h : getLatestCache log fid with _ | s
  · have e1 : runMatching compute log fid false =
        (compute fid, false, putCache log fid (compute fid)) := by
      rw [hrm, h]
    have e2 : runMatching compute (putCache log fid (compute fid)) fid false =
        (compute fid, true, putCache log fid (compute fid)) := by
      rw [hrm]
      rw [show putCache log fid (compute fid) = log ++ [(fid, compute fid)] from rfl]
      rw [getLatestCache_append_self]
    rw [e1]
    exact ⟨by rw [e2], by rw [e2]⟩
  · have e1 : runMatching compute log fid false = (s, true, log) := by
      rw [hrm, h]
    rw [e1]
    exact ⟨by rw [e1], by rw [e1]⟩

/-- Witness for C8 at a concrete computation and an empty cache. -/
theorem claim_C8_witness :
    (runMatching (fun _ => ⟨none, 0, 0, 0, 0, 0⟩)
        (runMatching (fun _ => ⟨none, 0, 0, 0, 0, 0⟩) [] none false).2.2 none false).2.1 =
      true :=
  (claim_C8_cache_idempotent (fun _ => ⟨none, 0, 0, 0, 0, 0⟩) [] none).2

/-! ### Latest-row read -/

theorem laterOf_ne_none (acc : Option SummaryRow) (row : SummaryRow) :
    laterOf acc row ≠ none := by
  rcases acc with _ | best
  · simp [laterOf]
  · simp only [laterOf]
    split <;> simp

theorem foldl_laterOf_eq_none : ∀ (l : List SummaryRow) (acc : Option SummaryRow),
    l.foldl laterOf acc = none ↔ acc = none ∧ l = [] := by
  intro l
  induction l with
  | nil => intro acc; simp
  | cons row t ih =>
    intro acc
    rw [List.foldl_cons, ih]
    constructor
    · rintro ⟨h1, _⟩
      exact absurd h1 (laterOf_ne_none acc row)
    · rintro ⟨_, h2⟩
      cases h2

theorem foldl_laterOf_some : ∀ (l : List SummaryRow) (acc : Option SummaryRow) (r : SummaryRow),
    l.foldl laterOf acc = some r →
      (∀ a, acc = some a → a.created_at ≤ r.created_at) ∧
      (∀ x ∈ l, x.created_at ≤ r.created_at) ∧
      (acc = some r ∨ r ∈ l) := by
  intro l
  induction l with
  | nil =>
    intro acc r h
    simp only [List.foldl_nil] at h
    refine ⟨?_, ?_, Or.inl h⟩
    · intro a ha
      rw [ha] at h
      have heq := Option.some.inj h
      rw [heq]
    · intro x hx
      cases hx
  | cons row t ih =>
    intro acc r h
    rw [List.foldl_cons] at h
    obtain ⟨ih1, ih2, ih3⟩ := ih (laterOf acc row) r h
    rcases acc with _ | best
    · have hrow : row.created_at ≤ r.created_at := ih1 row rfl
      refine ⟨?_, ?_, ?_⟩
      · intro a ha
        cases ha
      · intro x hx
        rcases List.mem_cons.mp hx with rfl | hxt
        · exact hrow
        · exact ih2 x hxt
      · rcases ih3 with h3 | h3
        · right
          have heq : row = r := Option.some.inj h3
          rw [← heq]
          exact List.mem_cons_self _ _
        · exact Or.inr (List.mem_cons_of_mem _ h3)
    · by_cases hle : best.created_at ≤ row.created_at
      · have hlat : laterOf (some best) row = some row := by
          simp [laterOf, hle]
        rw [hlat] at ih1 ih3
        have hrow : row.created_at ≤ r.created_at := ih1 row rfl
        refine ⟨?_, ?_, ?_⟩
        · intro a ha
          have heq := Option.some.inj ha
          rw [← heq]
          exact le_trans hle hrow
        · intro x hx
          rcases List.mem_cons.mp hx with rfl | hxt
          · exact hrow
          · exact ih2 x hxt
        · rcases ih3 with h3 | h3
          · right
            have heq : row = r := Option.some.inj h3
            rw [← heq]
            exact List.mem_cons_self _ _
          · exact Or.inr (List.mem_cons_of_mem _ h3)
      · have hlat : laterOf (some best) row = some best := by
          simp [laterOf, hle]
        rw [hlat] at ih1 ih3
        have hbest : best.created_at ≤ r.created_at := ih1 best rfl
        refine ⟨?_, ?_, ?_⟩
        · intro a ha
          have heq := Option.some.inj ha
          rw [← heq]
          exact hbest
        · intro x hx
          rcases List.mem_cons.mp hx with rfl | hxt
          · have hxb : x.created_at ≤ best.created_at := by omega
            exact le_trans hxb hbest
          · exact ih2 x hxt
        · rcases ih3 with h3 | h3
          · exact Or.inl h3
          · exact Or.inr (List.mem_cons_of_mem _ h3)

/-- C9: the cache read returns the single most recent matching row by
`created_at` — `none` exactly when no row matches the requested identity,
and never an older row when a newer matching one exists. -/
theorem claim_C9_latest_read (rows : List SummaryRow) (p : Option JSStr) :
    (latestRow rows p = none ↔ rows.filter (rowMatchesParam p) = []) ∧
    ∀ r, latestRow rows p = some r →
      rowMatchesParam p r = true ∧
      ∀ x ∈ rows, rowMatchesParam p x = true → x.created_at ≤ r.created_at := by
  constructor
  · show (rows.filter (rowMatchesParam p)).foldl laterOf none = none ↔ _
    rw [foldl_laterOf_eq_none]
    simp
  · intro r h
    obtain ⟨_, h2, h3⟩ := foldl_laterOf_some (rows.filter (rowMatchesParam p)) none r h
    constructor
    · rcases h3 with h3 | h3
      · cases h3
      · exact (List.mem_filter.mp h3).2
    · intro x hx hmatch
      exact h2 x (List.mem_filter.mpr ⟨hx, hmatch⟩)

/-- Witness for C9: with two rows for the same filter identity, the read
returns the newer one and the older row's timestamp is bounded by it. -/
theorem claim_C9_witness :
    rowMatchesParam (some (jstr "7")) ⟨some (jstr "7"), 3, 4, none, 20⟩ = true ∧
    (⟨some (jstr "7"), 1, 2, none, 10⟩ : SummaryRow).created_at ≤
      (⟨some (jstr "7"), 3, 4, none, 20⟩ : SummaryRow).created_at := by
  have h := (claim_C9_latest_read
    [⟨some (jstr "7"), 1, 2, none, 10⟩, ⟨some (jstr "7"), 3, 4, none, 20⟩]
    (some (jstr "7"))).2 ⟨some (jstr "7"), 3, 4, none, 20⟩ (by decide)
  exact ⟨h.1, h.2 _ (by decide) (by decide)⟩

/-- Witness for C1: the partition count equation at the concrete end-to-end
inputs. -/
theorem claim_C1_witness :
    (setIntersection (toUniqueSet [jstr "Acme Inc", jstr "Globex"] ⟨true, true⟩).set
        (toUniqueSet [jstr "acme inc", jstr "Initech"] ⟨true, true⟩).set).length +
      (setDifference (toUniqueSet [jstr "Acme Inc", jstr "Globex"] ⟨true, true⟩).set
        (toUniqueSet [jstr "acme inc", jstr "Initech"] ⟨true, true⟩).set).length =
      (toUniqueSet [jstr "Acme Inc", jstr "Globex"] ⟨true, true⟩).uniqueCount :=
  (claim_C1_partition [jstr "Acme Inc", jstr "Globex"] [jstr "acme inc", jstr "Initech"]
    ⟨true, true⟩).2.2.2.2.2

/-- Witness for C2: swap symmetry of matches at concrete equal-sized sets. -/
theorem claim_C2_witness :
    (reconcile [jstr "a", jstr "b"] [jstr "b", jstr "a"]).matched.Perm
      ((reconcile [jstr "b", jstr "a"] [jstr "a", jstr "b"]).matched) :=
  (claim_C2_reconcile_symmetric [jstr "a", jstr "b"] [jstr "b", jstr "a"]).1

/-- Witness for C3: idempotence at a concrete line with NBSP, padding and
mixed case. -/
theorem claim_C3_witness :
    normalizeLine (normalizeLine ([32, 65, 99, 109, 101, 160, 73, 110, 99, 32])
        ⟨true, true⟩) ⟨true, true⟩ =
      normalizeLine ([32, 65, 99, 109, 101, 160, 73, 110, 99, 32]) ⟨true, true⟩ :=
  claim_C3_normalizeLine_idempotent [32, 65, 99, 109, 101, 160, 73, 110, 99, 32] ⟨true, true⟩

/-- Witness for C5: count inequality at a concrete duplicated input. -/
theorem claim_C5_witness :
    (toUniqueSet [jstr "Acme", jstr "acme", jstr ""] ⟨true, true⟩).uniqueCount ≤
      (toUniqueSet [jstr "Acme", jstr "acme", jstr ""] ⟨true, true⟩).totalCount :=
  (claim_C5_nameset_invariants [jstr "Acme", jstr "acme", jstr ""] ⟨true, true⟩).2.1
